import Mathlib

/-!
Verification of the local-skills Ollama agent.

The development embeds, as pure Lean functions, the logic of
`local_skills.py` (skill discovery, reference-file indexing, relevance
selection) and `enhanced_ollama_agent.py` (code-block extraction, R
execution outcome classification, plot-artifact collection, and the
per-turn orchestration in `chat` / `stream_chat`).  External effects
(filesystem contents, the Rscript subprocess, the Ollama chat call) are
modelled as explicit inputs describing the outcome the environment
produced.
-/

set_option linter.unusedVariables false

/-! ## String utilities (models of the Python primitives used) -/

/-- Character-wise lower casing, the model of Python `str.lower()`. -/
def lowerStr (s : String) : String := String.mk (s.toList.map Char.toLower)

/-- The whitespace characters recognised by Python `str.split()`
(space, tab, newline, carriage return, vertical tab, form feed). -/
def pyIsSpace (c : Char) : Bool :=
  c == ' ' || c == '\t' || c == '\n' || c == '\r' ||
    c == Char.ofNat 11 || c == Char.ofNat 12

/-- Worker for `pySplit`: accumulates the current word (reversed). -/
def pySplitAux (acc : List Char) : List Char → List (List Char)
  | [] => if acc.isEmpty then [] else [acc.reverse]
  | c :: cs =>
    if pyIsSpace c then
      if acc.isEmpty then pySplitAux [] cs else acc.reverse :: pySplitAux [] cs
    else
      pySplitAux (c :: acc) cs

/-- Python `str.split()` with no argument: split on runs of whitespace,
dropping empty words. -/
def pySplit (s : String) : List (List Char) := pySplitAux [] s.toList

/-- Substring test on character lists, the model of Python `needle in haystack`. -/
def listIsInfixOf (needle : List Char) : List Char → Bool
  | [] => needle.isEmpty
  | c :: cs => needle.isPrefixOf (c :: cs) || listIsInfixOf needle cs

/-- Python `needle in haystack` on strings. -/
def strContainsSub (haystack needle : String) : Bool :=
  listIsInfixOf needle.toList haystack.toList

/-- The model of `pathlib.Path.suffix` applied to a file name: the part of
the name from the last dot on, provided the dot is neither the first nor
the last character; otherwise the empty string. -/
def pySuffix (s : String) : String :=
  let cs := s.toList
  match cs.reverse.findIdx? (· == '.') with
  | none => ""
  | some j =>
    let i := cs.length - 1 - j
    if 0 < i ∧ i < cs.length - 1 then String.mk (cs.drop i) else ""

/-! ## Execution model of `EnhancedOllamaAgent._execute_r_code`

The working directory (`save_plots_to`) is a flat list of entries; the
subprocess outcome is an explicit `RunOutcome` input. -/

/-- One entry of the non-recursive scan of the plots directory:
its file name, whether it is a regular file, and its modification time. -/
structure DirFile where
  name : String
  isFile : Bool
  mtime : Int
deriving DecidableEq, Repr

/-- `plot_extensions` from `_execute_r_code`. -/
def plot_extensions : List String := [".png", ".pdf", ".jpg", ".jpeg", ".svg"]

/-- The result dictionary produced by `_execute_r_code`. -/
structure ExecResult where
  success : Bool
  error : Option String
  output : String
  plot_files : List DirFile
deriving DecidableEq, Repr

/-- What happened when the `Rscript` subprocess was invoked. -/
inductive RunOutcome where
  | completed (returncode : Int) (stdoutText stderrText : String)
  | timedOut
  | rscriptNotFound
  | otherFailure (message : String)
deriving DecidableEq, Repr

/-- The fixed message returned on `subprocess.TimeoutExpired`. -/
def timeout_message : String := "R script execution timed out (60s limit)"

/-- The fixed message returned on `FileNotFoundError` (missing `Rscript`). -/
def rscript_not_found_message : String :=
  "Rscript not found. Make sure R is installed and in PATH."

/-- The plot-file scan of `_execute_r_code`: keep regular files whose
suffix, lower-cased, is a known plot extension and whose modification
time is newer than the script file's modification time minus 5 seconds. -/
def collectPlotFiles (dirFiles : List DirFile) (scriptMtime : Int) : List DirFile :=
  dirFiles.filter (fun f =>
    f.isFile && plot_extensions.contains (lowerStr (pySuffix f.name)) &&
      decide (scriptMtime - 5 < f.mtime))

/-- `EnhancedOllamaAgent._execute_r_code`: classify the run outcome into
the result dictionary.  `dirFiles` is the directory listing at scan time
and `scriptMtime` the modification time of the written script file. -/
def execute_r_code (rCode : String) (outcome : RunOutcome)
    (dirFiles : List DirFile) (scriptMtime : Int) : ExecResult :=
  match outcome with
  | .completed rc out err =>
    if rc ≠ 0 then
      { success := false, error := some (err ++ out), output := "None", plot_files := [] }
    else
      { success := true, error := none, output := out,
        plot_files := collectPlotFiles dirFiles scriptMtime }
  | .timedOut =>
    { success := false, error := some timeout_message, output := "", plot_files := [] }
  | .rscriptNotFound =>
    { success := false, error := some rscript_not_found_message, output := "",
      plot_files := [] }
  | .otherFailure msg =>
    { success := false, error := some msg, output := "", plot_files := [] }

/-! ## Theorems for the execution classification claims -/

/-- C2: `_execute_r_code` classifies outcomes exactly as specified: a
non-zero exit yields failure with error text `stderr ++ stdout` (stdout
is kept on the failure path); a timeout yields failure with the fixed
message naming the 60-second bound; a missing interpreter yields failure
with a fixed, distinct message telling the operator to install R and put
it on PATH; a zero exit yields success with `output` the captured stdout
and an empty `error` field. -/
theorem execute_r_code_classification
    (rCode out err : String) (rc : Int) (dirFiles : List DirFile) (m : Int) :
    (rc ≠ 0 → execute_r_code rCode (.completed rc out err) dirFiles m =
      { success := false, error := some (err ++ out), output := "None",
        plot_files := [] }) ∧
    (execute_r_code rCode .timedOut dirFiles m =
      { success := false, error := some timeout_message, output := "",
        plot_files := [] }) ∧
    (strContainsSub timeout_message ("60") = true) ∧
    (execute_r_code rCode .rscriptNotFound dirFiles m =
      { success := false, error := some rscript_not_found_message, output := "",
        plot_files := [] }) ∧
    (strContainsSub rscript_not_found_message ("installed") = true ∧
      strContainsSub rscript_not_found_message ("PATH") = true) ∧
    (timeout_message ≠ rscript_not_found_message) ∧
    ((execute_r_code rCode (.completed 0 out err) dirFiles m).success = true ∧
      (execute_r_code rCode (.completed 0 out err) dirFiles m).output = out ∧
      (execute_r_code rCode (.completed 0 out err) dirFiles m).error = none) := by
  refine ⟨fun h => ?_, rfl, by decide, rfl, by decide, by decide, ?_, ?_, ?_⟩
  · simp only [execute_r_code, if_pos h]
  · simp [execute_r_code]
  · simp [execute_r_code]
  · simp [execute_r_code]

/-- Witness for C2: the non-zero-exit case evaluated at a concrete input. -/
theorem execute_r_code_classification_witness :
    (1 : Int) ≠ 0 ∧
      execute_r_code ("x") (.completed 1 ("out") ("err")) [] 0 =
        { success := false, error := some ("err" ++ "out"), output := "None",
          plot_files := [] } :=
  ⟨by decide,
    (execute_r_code_classification ("x") ("out") ("err") 1 [] 0).1 (by decide)⟩

/-- C3: whenever `_execute_r_code` reports failure, the list of collected
plot files is empty; artifacts can be non-empty only on success. -/
theorem execute_r_code_failure_no_plots
    (rCode : String) (outcome : RunOutcome) (dirFiles : List DirFile) (m : Int)
    (h : (execute_r_code rCode outcome dirFiles m).success = false) :
    (execute_r_code rCode outcome dirFiles m).plot_files = [] := by
  cases outcome with
  | completed rc out err =>
    by_cases hrc : rc ≠ 0
    · simp [execute_r_code, if_pos hrc]
    · exfalso
      simp [execute_r_code, if_neg hrc] at h
  | timedOut => rfl
  | rscriptNotFound => rfl
  | otherFailure msg => rfl

/-- Witness for C3: the timeout case at a concrete input. -/
theorem execute_r_code_failure_no_plots_witness :
    (execute_r_code ("x") .timedOut [⟨"a.png", true, 100⟩] 0).success = false ∧
      (execute_r_code ("x") .timedOut [⟨"a.png", true, 100⟩] 0).plot_files = [] :=
  ⟨rfl, execute_r_code_failure_no_plots ("x") .timedOut [⟨"a.png", true, 100⟩] 0 rfl⟩

/-- C7: after a zero-exit run, the collected plot files are exactly the
directory entries (in directory order) that are regular files, whose
suffix compared case-insensitively is one of `.png .pdf .jpg .jpeg .svg`,
and whose modification time is strictly newer than the script file's
modification time minus 5 seconds. -/
theorem execute_r_code_plot_collection
    (rCode out err : String) (dirFiles : List DirFile) (m : Int) :
    List.Sublist (execute_r_code rCode (.completed 0 out err) dirFiles m).plot_files
      dirFiles ∧
    ∀ f : DirFile,
      f ∈ (execute_r_code rCode (.completed 0 out err) dirFiles m).plot_files ↔
        f ∈ dirFiles ∧ f.isFile = true ∧
          lowerStr (pySuffix f.name) ∈ plot_extensions ∧ m - 5 < f.mtime := by
  constructor
  · simp only [execute_r_code, if_neg (by decide : ¬ ((0 : Int) ≠ 0))]
    exact List.filter_sublist dirFiles
  · intro f
    simp only [execute_r_code, if_neg (by decide : ¬ ((0 : Int) ≠ 0))]
    simp [collectPlotFiles, List.mem_filter, List.contains_iff_exists_mem_beq,
      and_assoc, beq_iff_eq]

/-! ## Skill data and `SkillManager.select_relevant_skills` -/

/-- A loaded skill: its metadata and body, as used by the agent. -/
structure Skill where
  name : String
  description : String
  content : String
deriving DecidableEq, Repr

/-- The relevance score of one skill for a query, from
`select_relevant_skills`: the number of whitespace-separated words of the
lower-cased query that are longer than 3 characters and occur as
substrings of the skill's lower-cased `name + " " + description`
(repeated query words counted once per occurrence). -/
def skillScore (userQuery : String) (s : Skill) : Nat :=
  ((pySplit (lowerStr userQuery)).filter (fun w =>
    decide (3 < w.length) &&
      listIsInfixOf w (lowerStr (s.name ++ " " ++ s.description)).toList)).length

/-- Stable descending insertion by score: `x` is placed after every
element with a strictly larger score and before all others, so equal
scores keep their original relative order. -/
def insertScored (x : Nat × Skill) : List (Nat × Skill) → List (Nat × Skill)
  | [] => [x]
  | y :: ys => if x.1 < y.1 then y :: insertScored x ys else x :: y :: ys

/-- Stable sort by non-increasing score, the model of Python
`scored_skills.sort(reverse=True, key=lambda x: x[0])` (Python's sort is
stable, and `reverse=True` keeps equal keys in original order). -/
def sortScored : List (Nat × Skill) → List (Nat × Skill)
  | [] => []
  | x :: xs => insertScored x (sortScored xs)

/-- `SkillManager.select_relevant_skills`: score every registered skill,
keep those with positive score, sort stably by descending score, and
return the first `maxSkills` skills. -/
def select_relevant_skills (skills : List Skill) (userQuery : String)
    (maxSkills : Nat) : List Skill :=
  if skills.isEmpty then []
  else
    let scored := skills.filterMap (fun s =>
      if 0 < skillScore userQuery s then some (skillScore userQuery s, s) else none)
    ((sortScored scored).take maxSkills).map Prod.snd

theorem select_relevant_skills_eq (skills : List Skill) (q : String) (k : Nat) :
    select_relevant_skills skills q k =
      ((sortScored (skills.filterMap (fun s =>
          if 0 < skillScore q s then some (skillScore q s, s) else none))).take k).map
        Prod.snd := by
  cases skills with
  | nil => simp [select_relevant_skills, sortScored]
  | cons s ss => rfl

theorem insertScored_perm (x : Nat × Skill) (l : List (Nat × Skill)) :
    (insertScored x l).Perm (x :: l) := by
  induction l with
  | nil => exact List.Perm.refl _
  | cons y ys ih =>
    by_cases h : x.1 < y.1
    · simp only [insertScored, if_pos h]
      exact (ih.cons y).trans (List.Perm.swap x y ys)
    · simp only [insertScored, if_neg h]
      exact List.Perm.refl _

theorem sortScored_perm (l : List (Nat × Skill)) : (sortScored l).Perm l := by
  induction l with
  | nil => exact List.Perm.refl _
  | cons x xs ih => exact (insertScored_perm x (sortScored xs)).trans (ih.cons x)

theorem insertScored_pairwise (x : Nat × Skill) (l : List (Nat × Skill))
    (h : l.Pairwise (fun a b => b.1 ≤ a.1)) :
    (insertScored x l).Pairwise (fun a b => b.1 ≤ a.1) := by
  induction l with
  | nil => simp [insertScored]
  | cons y ys ih =>
    rcases List.pairwise_cons.mp h with ⟨hy, hys⟩
    by_cases hx : x.1 < y.1
    · simp only [insertScored, if_pos hx]
      refine List.pairwise_cons.mpr ⟨?_, ih hys⟩
      intro z hz
      rcases List.mem_cons.mp ((insertScored_perm x ys).mem_iff.mp hz) with hzx | hz'
      · subst hzx; exact le_of_lt hx
      · exact hy z hz'
    · simp only [insertScored, if_neg hx]
      have hxy : y.1 ≤ x.1 := le_of_not_lt hx
      refine List.pairwise_cons.mpr ⟨?_, h⟩
      intro z hz
      rcases List.mem_cons.mp hz with hzy | hz'
      · subst hzy; exact hxy
      · exact le_trans (hy z hz') hxy

theorem sortScored_pairwise (l : List (Nat × Skill)) :
    (sortScored l).Pairwise (fun a b => b.1 ≤ a.1) := by
  induction l with
  | nil => simp [sortScored]
  | cons x xs ih => exact insertScored_pairwise x (sortScored xs) ih

theorem insertScored_filter (x : Nat × Skill) (l : List (Nat × Skill)) (c : Nat) :
    (insertScored x l).filter (fun p => p.1 == c) =
      (x :: l).filter (fun p => p.1 == c) := by
  induction l with
  | nil => rfl
  | cons y ys ih =>
    by_cases hx : x.1 < y.1
    · simp only [insertScored, if_pos hx, List.filter_cons, ih]
      by_cases hxc : x.1 = c
      · have hyc : ¬ y.1 = c := by omega
        simp [hxc, hyc]
      · simp [hxc]
    · simp only [insertScored, if_neg hx]

theorem sortScored_filter (l : List (Nat × Skill)) (c : Nat) :
    (sortScored l).filter (fun p => p.1 == c) = l.filter (fun p => p.1 == c) := by
  induction l with
  | nil => rfl
  | cons x xs ih =>
    calc (insertScored x (sortScored xs)).filter (fun p => p.1 == c)
        = (x :: sortScored xs).filter (fun p => p.1 == c) :=
          insertScored_filter x (sortScored xs) c
      _ = (x :: xs).filter (fun p => p.1 == c) := by
          simp only [List.filter_cons, ih]

theorem scored_eq_map_filter (q : String) (skills : List Skill) :
    skills.filterMap (fun s =>
        if 0 < skillScore q s then some (skillScore q s, s) else none) =
      (skills.filter (fun s => decide (0 < skillScore q s))).map
        (fun s => (skillScore q s, s)) := by
  induction skills with
  | nil => rfl
  | cons s ss ih =>
    by_cases h : 0 < skillScore q s
    · simp [List.filterMap_cons, List.filter_cons, h, ih]
    · simp [List.filterMap_cons, List.filter_cons, h, ih]

theorem mem_scored (q : String) (skills : List Skill) {p : Nat × Skill}
    (hp : p ∈ skills.filterMap (fun s =>
      if 0 < skillScore q s then some (skillScore q s, s) else none)) :
    p.1 = skillScore q p.2 ∧ 0 < p.1 ∧ p.2 ∈ skills := by
  rw [scored_eq_map_filter] at hp
  rcases List.mem_map.mp hp with ⟨s, hs, rfl⟩
  rcases List.mem_filter.mp hs with ⟨hmem, hpos⟩
  exact ⟨rfl, of_decide_eq_true hpos, hmem⟩

/-- C1: for every query, registry and bound, `select_relevant_skills`
returns exactly `min maxSkills n` skills where `n` counts the skills with
positive score (so never more than `maxSkills` and never a zero-score
skill), sorted by non-increasing `skillScore`, and for every score value
the equal-score skills form a subsequence of the registry, i.e. ties keep
discovery order.  `skillScore` itself tokenizes the query on whitespace,
discards tokens of length ≤ 3, lower-cases tokens and the skill's
`name + description`, and counts substring occurrences once per query
token occurrence. -/
theorem select_relevant_skills_spec (q : String) (skills : List Skill) (k : Nat) :
    (select_relevant_skills skills q k).length =
        min k ((skills.filter (fun s => decide (0 < skillScore q s))).length) ∧
    (∀ s ∈ select_relevant_skills skills q k, 0 < skillScore q s) ∧
    (select_relevant_skills skills q k).Pairwise
        (fun a b => skillScore q b ≤ skillScore q a) ∧
    ∀ c : Nat, List.Sublist
        ((select_relevant_skills skills q k).filter (fun s => skillScore q s == c))
        skills := by
  rw [select_relevant_skills_eq]
  set scored := skills.filterMap (fun s =>
    if 0 < skillScore q s then some (skillScore q s, s) else none) with hscored
  refine ⟨?_, ?_, ?_, ?_⟩
  · rw [List.length_map, List.length_take, (sortScored_perm scored).length_eq,
      hscored, scored_eq_map_filter, List.length_map]
  · intro s hs
    rcases List.mem_map.mp hs with ⟨p, hp, rfl⟩
    have hp' : p ∈ scored :=
      (sortScored_perm scored).mem_iff.mp (List.take_subset _ _ hp)
    rcases mem_scored q skills hp' with ⟨h1, h2, _⟩
    rw [← h1]
    exact h2
  · have hX : (List.take k (sortScored scored)).Pairwise (fun a b => b.1 ≤ a.1) :=
      (sortScored_pairwise scored).sublist (List.take_sublist k _)
    rw [List.pairwise_map]
    refine hX.imp_of_mem ?_
    intro a b ha hb hab
    have ha' : a ∈ scored :=
      (sortScored_perm scored).mem_iff.mp (List.take_subset _ _ ha)
    have hb' : b ∈ scored :=
      (sortScored_perm scored).mem_iff.mp (List.take_subset _ _ hb)
    rw [← (mem_scored q skills ha').1, ← (mem_scored q skills hb').1]
    exact hab
  · intro c
    rw [List.filter_map]
    have h2 : ((List.take k (sortScored scored)).filter
        ((fun s => skillScore q s == c) ∘ Prod.snd)) =
        (List.take k (sortScored scored)).filter (fun p => p.1 == c) := by
      refine List.filter_congr ?_
      intro p hp
      have hp' : p ∈ scored :=
        (sortScored_perm scored).mem_iff.mp (List.take_subset _ _ hp)
      simp only [Function.comp_apply]
      rw [← (mem_scored q skills hp').1]
    rw [h2]
    have h3 : List.Sublist
        ((List.take k (sortScored scored)).filter (fun p => p.1 == c))
        ((sortScored scored).filter (fun p => p.1 == c)) :=
      (List.take_sublist k _).filter _
    have h4 : (sortScored scored).filter (fun p => p.1 == c) =
        scored.filter (fun p => p.1 == c) := sortScored_filter scored c
    have h6 : List.Sublist
        (List.map Prod.snd
          ((List.take k (sortScored scored)).filter (fun p => p.1 == c)))
        (List.map Prod.snd (scored.filter (fun p => p.1 == c))) :=
      (h4 ▸ h3).map _
    have h7 : List.map Prod.snd (scored.filter (fun p => p.1 == c)) =
        ((skills.filter (fun s => decide (0 < skillScore q s))).filter
          (fun s => skillScore q s == c)) := by
      rw [hscored, scored_eq_map_filter, List.filter_map, List.map_map]
      simp [Function.comp_def]
    refine (h7 ▸ h6).trans ?_
    exact (List.filter_sublist _).trans (List.filter_sublist _)

/-- Witness for C1: on a concrete registry and query, the returned skill
has positive score. -/
theorem select_relevant_skills_spec_witness :
    0 < skillScore ("create a sales report") ⟨"sales", "quarterly sales report", ""⟩ :=
  (select_relevant_skills_spec ("create a sales report")
    [⟨"cooking", "tasty recipes", ""⟩, ⟨"sales", "quarterly sales report", ""⟩] 3).2.1
    ⟨"sales", "quarterly sales report", ""⟩ (by decide)

/-! ## `EnhancedOllamaAgent._extract_code_blocks`

The regex used is `rf'```{language}\n(.*?)```'` with `re.DOTALL` and
`re.IGNORECASE`, run through `re.findall`: scan left to right, at each
position try to match the opening fence, the language tag
(case-insensitively) and a line break, then lazily capture everything up
to the next closing fence; on success emit the captured body and resume
after the closing fence; on failure advance one character. -/

/-- The fence character (backquote, code point 96). -/
def fenceChar : Char := Char.ofNat 96

/-- Does the text start with a three-character fence? -/
def isFenceStart : List Char → Bool
  | a :: b :: c :: _ => a == fenceChar && b == fenceChar && c == fenceChar
  | _ => false

/-- The lazy body match `(.*?)` followed by the closing fence: capture
the shortest prefix after which a closing fence follows, returning the
body and the text after the closing fence; `none` when no closing fence
occurs. -/
def takeBody : List Char → Option (List Char × List Char)
  | [] => none
  | c :: cs =>
    if isFenceStart (c :: cs) then some ([], cs.drop 2)
    else (takeBody cs).map (fun p => (c :: p.1, p.2))

/-- Match the language tag (case-insensitively, per `re.IGNORECASE`)
followed by a line break, returning the remaining text. -/
def matchLangNl : List Char → List Char → Option (List Char)
  | [], c :: rest => if c == '\n' then some rest else none
  | _ :: _, [] => none
  | l :: ls, c :: rest => if c.toLower == l.toLower then matchLangNl ls rest else none
  | [], [] => none

/-- Match the opening fence, language tag and line break at the start of
the text, returning the text after the opening. -/
def matchesOpen (lang : List Char) (cs : List Char) : Option (List Char) :=
  match cs with
  | a :: b :: c :: cs1 =>
    if a == fenceChar && b == fenceChar && c == fenceChar then matchLangNl lang cs1
    else none
  | _ => none

theorem matchLangNl_length (ls : List Char) :
    ∀ xs a, matchLangNl ls xs = some a → a.length < xs.length := by
  induction ls with
  | nil =>
    intro xs a h
    cases xs with
    | nil => simp [matchLangNl] at h
    | cons c rest =>
      by_cases hc : c == '\n'
      · simp only [matchLangNl, if_pos hc, Option.some.injEq] at h
        subst h
        simp
      · simp [matchLangNl, hc] at h
  | cons l ls ih =>
    intro xs a h
    cases xs with
    | nil => simp [matchLangNl] at h
    | cons c rest =>
      by_cases hc : c.toLower == l.toLower
      · simp only [matchLangNl, if_pos hc] at h
        have := ih rest a h
        simp only [List.length_cons]
        omega
      · simp [matchLangNl, hc] at h

theorem matchesOpen_length (lang cs a : List Char)
    (h : matchesOpen lang cs = some a) : a.length < cs.length := by
  cases cs with
  | nil => simp [matchesOpen] at h
  | cons x t1 =>
    cases t1 with
    | nil => simp [matchesOpen] at h
    | cons y t2 =>
      cases t2 with
      | nil => simp [matchesOpen] at h
      | cons z cs1 =>
        simp only [matchesOpen] at h
        split at h
        · have := matchLangNl_length lang cs1 a h
          simp only [List.length_cons]
          omega
        · cases h

theorem takeBody_length (cs : List Char) :
    ∀ b r, takeBody cs = some (b, r) → r.length ≤ cs.length := by
  induction cs with
  | nil => intro b r h; cases h
  | cons c cs ih =>
    intro b r h
    simp only [takeBody] at h
    split at h
    · simp only [Option.some.injEq, Prod.mk.injEq] at h
      obtain ⟨h1, h2⟩ := h
      subst h2
      simp only [List.length_cons, List.length_drop]
      omega
    · cases htb : takeBody cs with
      | none => rw [htb] at h; cases h
      | some p =>
        rw [htb] at h
        simp only [Option.map_some', Option.some.injEq, Prod.mk.injEq] at h
        obtain ⟨h1, h2⟩ := h
        subst h2
        have := ih p.1 p.2 htb
        simp only [List.length_cons]
        omega

/-- The left-to-right non-overlapping scan of `re.findall` for the
fenced-code-block pattern. -/
def findBlocks (lang : List Char) : List Char → List (List Char)
  | [] => []
  | c :: rest =>
    match h1 : matchesOpen lang (c :: rest) with
    | some afterOpen =>
      match h2 : takeBody afterOpen with
      | some (body, rest2) => body :: findBlocks lang rest2
      | none => findBlocks lang rest
    | none => findBlocks lang rest
termination_by cs => cs.length
decreasing_by
  · have ha := matchesOpen_length lang (c :: cs) afterOpen h1
    have hb := takeBody_length afterOpen body rest2 h2
    simp only [List.length_cons] at ha ⊢
    omega
  · simp only [List.length_cons]
    omega
  · simp only [List.length_cons]
    omega

/-- `EnhancedOllamaAgent._extract_code_blocks`. -/
def extract_code_blocks (text : String) (language : String) : List String :=
  (findBlocks language.toList text.toList).map String.mk

theorem findBlocks_nil (lang : List Char) : findBlocks lang [] = [] := by
  rw [findBlocks]

theorem findBlocks_cons_none (lang : List Char) (c : Char) (rest : List Char)
    (h : matchesOpen lang (c :: rest) = none) :
    findBlocks lang (c :: rest) = findBlocks lang rest := by
  rw [findBlocks]
  split
  · rename_i afterOpen h1
    rw [h] at h1
    cases h1
  · rfl

theorem findBlocks_cons_some (lang : List Char) (c : Char)
    (rest afterOpen body rest2 : List Char)
    (h1 : matchesOpen lang (c :: rest) = some afterOpen)
    (h2 : takeBody afterOpen = some (body, rest2)) :
    findBlocks lang (c :: rest) = body :: findBlocks lang rest2 := by
  rw [findBlocks]
  split
  · rename_i afterOpen' h1'
    rw [h1] at h1'
    cases h1'
    split
    · rename_i body' rest2' h2'
      rw [h2] at h2'
      cases h2'
      rfl
    · rename_i h2'
      rw [h2] at h2'
      cases h2'
  · rename_i h1'
    rw [h1] at h1'
    cases h1'

theorem matchesOpen_head_ne (lang : List Char) (c : Char) (cs : List Char)
    (hc : c ≠ fenceChar) : matchesOpen lang (c :: cs) = none := by
  rcases cs with _ | ⟨y, _ | ⟨z, t⟩⟩
  · rfl
  · rfl
  · simp [matchesOpen, hc]

theorem findBlocks_skip (lang s rest : List Char) (hs : fenceChar ∉ s) :
    findBlocks lang (s ++ rest) = findBlocks lang rest := by
  induction s with
  | nil => rfl
  | cons c cs ih =>
    have hc : c ≠ fenceChar := fun h => hs (h ▸ List.mem_cons_self c cs)
    have hcs : fenceChar ∉ cs := fun h => hs (List.mem_cons_of_mem c h)
    calc findBlocks lang (c :: (cs ++ rest))
        = findBlocks lang (cs ++ rest) :=
          findBlocks_cons_none lang c (cs ++ rest) (matchesOpen_head_ne lang c _ hc)
      _ = findBlocks lang rest := ih hcs

theorem matchLangNl_of_caseEq (lang : List Char) :
    ∀ t : List Char, t.map Char.toLower = lang.map Char.toLower →
      ∀ rest, matchLangNl lang (t ++ '\n' :: rest) = some rest := by
  induction lang with
  | nil =>
    intro t ht rest
    have : t = [] := by simpa using ht
    subst this
    simp [matchLangNl]
  | cons l ls ih =>
    intro t ht rest
    rcases t with _ | ⟨c, t'⟩
    · simp at ht
    · simp only [List.map_cons, List.cons.injEq] at ht
      obtain ⟨hc, ht'⟩ := ht
      simp only [List.cons_append, matchLangNl]
      rw [if_pos (by simp [hc])]
      exact ih t' ht' rest

theorem isFenceStart_append (l r : List Char) (h : 3 ≤ l.length) :
    isFenceStart (l ++ r) = isFenceStart l := by
  rcases l with _ | ⟨a, _ | ⟨b, _ | ⟨c, t⟩⟩⟩
  · simp at h
  · simp at h
  · simp at h
  · rfl

theorem takeBody_fence (cs : List Char) :
    takeBody (fenceChar :: fenceChar :: fenceChar :: cs) = some ([], cs) := by
  simp [takeBody, isFenceStart]

theorem takeBody_extend (b : List Char)
    (h : takeBody (b ++ [fenceChar, fenceChar, fenceChar]) = some (b, [])) :
    ∀ rest, takeBody (b ++ [fenceChar, fenceChar, fenceChar] ++ rest) =
      some (b, rest) := by
  induction b with
  | nil =>
    intro rest
    simpa using takeBody_fence rest
  | cons c b' ih =>
    intro rest
    rw [List.cons_append] at h
    have hnf : isFenceStart (c :: (b' ++ [fenceChar, fenceChar, fenceChar])) = false := by
      by_contra hcon
      rw [takeBody, if_pos (by simpa using hcon)] at h
      simp at h
    have h' : takeBody (b' ++ [fenceChar, fenceChar, fenceChar]) = some (b', []) := by
      rw [takeBody, if_neg (by simp [hnf])] at h
      cases htb : takeBody (b' ++ [fenceChar, fenceChar, fenceChar]) with
      | none => rw [htb] at h; cases h
      | some p =>
        obtain ⟨p1, p2⟩ := p
        rw [htb] at h
        simp only [Option.map_some', Option.some.injEq, Prod.mk.injEq,
          List.cons.injEq] at h
        obtain ⟨⟨h1, h2⟩, h3⟩ := h
        rw [h2, h3]
    have hih := ih h' rest
    have hshape : (c :: b') ++ [fenceChar, fenceChar, fenceChar] ++ rest
        = c :: (b' ++ [fenceChar, fenceChar, fenceChar] ++ rest) := by
      simp [List.append_assoc]
    rw [hshape]
    have hnf2 : isFenceStart (c :: (b' ++ [fenceChar, fenceChar, fenceChar] ++ rest))
        = false := by
      have heq : c :: (b' ++ [fenceChar, fenceChar, fenceChar] ++ rest)
          = (c :: (b' ++ [fenceChar, fenceChar, fenceChar])) ++ rest := by
        simp [List.append_assoc]
      rw [heq, isFenceStart_append _ rest
        (by simp only [List.length_cons, List.length_append]; omega), hnf]
    rw [takeBody, if_neg (by simpa using hnf2), hih]
    rfl

/-- One well-formed fenced block for tag `tag` and body `body`:
opening fence, tag, line break, body, closing fence. -/
def fenceBlock (tag body : List Char) : List Char :=
  fenceChar :: fenceChar :: fenceChar ::
    (tag ++ '\n' :: (body ++ [fenceChar, fenceChar, fenceChar]))

theorem findBlocks_fenceBlock (lang t body : List Char)
    (ht : t.map Char.toLower = lang.map Char.toLower)
    (hb : takeBody (body ++ [fenceChar, fenceChar, fenceChar]) = some (body, [])) :
    ∀ rest, findBlocks lang (fenceBlock t body ++ rest) =
      body :: findBlocks lang rest := by
  intro rest
  have hshape : fenceBlock t body ++ rest =
      fenceChar :: fenceChar :: fenceChar ::
        (t ++ '\n' :: (body ++ [fenceChar, fenceChar, fenceChar] ++ rest)) := by
    simp [fenceBlock, List.append_assoc]
  rw [hshape]
  have hopen : matchesOpen lang (fenceChar :: fenceChar :: fenceChar ::
      (t ++ '\n' :: (body ++ [fenceChar, fenceChar, fenceChar] ++ rest))) =
      some (body ++ [fenceChar, fenceChar, fenceChar] ++ rest) := by
    simp only [matchesOpen]
    rw [if_pos (by simp)]
    exact matchLangNl_of_caseEq lang t ht _
  have hbody := takeBody_extend body hb rest
  exact findBlocks_cons_some lang fenceChar _ _ body rest hopen hbody

/-- A text assembled from separator segments and fenced blocks, in
alternation starting and ending with a separator. -/
def mkText : List (List Char) → List (List Char × List Char) → List Char
  | [], _ => []
  | s :: _, [] => s
  | s :: ss, (t, b) :: bs => s ++ (fenceBlock t b ++ mkText ss bs)

theorem findBlocks_mkText (lang : List Char) :
    ∀ (blocks : List (List Char × List Char)) (seps : List (List Char)),
      seps.length = blocks.length + 1 →
      (∀ s ∈ seps, fenceChar ∉ s) →
      (∀ p ∈ blocks, p.1.map Char.toLower = lang.map Char.toLower ∧
        takeBody (p.2 ++ [fenceChar, fenceChar, fenceChar]) = some (p.2, [])) →
      findBlocks lang (mkText seps blocks) = blocks.map Prod.snd := by
  intro blocks
  induction blocks with
  | nil =>
    intro seps hlen hsep hblocks
    rcases seps with _ | ⟨s, ss⟩
    · simp at hlen
    · rw [show mkText (s :: ss) [] = s from rfl, ← List.append_nil s,
        findBlocks_skip lang s [] (hsep s (List.mem_cons_self s ss)), findBlocks_nil]
      rfl
  | cons p bs ih =>
    intro seps hlen hsep hblocks
    rcases seps with _ | ⟨s, ss⟩
    · simp at hlen
    · obtain ⟨t, b⟩ := p
      have hs : fenceChar ∉ s := hsep s (List.mem_cons_self s ss)
      have hp := hblocks (t, b) (List.mem_cons_self _ _)
      have hss : ss.length = bs.length + 1 := by simpa using hlen
      have hsep' : ∀ x ∈ ss, fenceChar ∉ x :=
        fun x hx => hsep x (List.mem_cons_of_mem s hx)
      have hblocks' : ∀ q ∈ bs, q.1.map Char.toLower = lang.map Char.toLower ∧
          takeBody (q.2 ++ [fenceChar, fenceChar, fenceChar]) = some (q.2, []) :=
        fun q hq => hblocks q (List.mem_cons_of_mem _ hq)
      show findBlocks lang (s ++ (fenceBlock t b ++ mkText ss bs)) = _
      rw [findBlocks_skip lang s _ hs,
        findBlocks_fenceBlock lang t b hp.1 hp.2 (mkText ss bs),
        ih ss hss hsep' hblocks']
      rfl

/-- C6: for every text assembled from N well-formed fenced blocks whose
opening fence is immediately followed by a tag that equals the target
language case-insensitively and a line break, with backtick-free
separator text around them and bodies containing no early closing fence,
`_extract_code_blocks` returns exactly the N bodies in order of
appearance; in particular with zero blocks it returns the empty list
(and, being a total function, it never raises). -/
theorem extract_code_blocks_spec (language : String)
    (blocks : List (List Char × List Char)) (seps : List (List Char))
    (hlen : seps.length = blocks.length + 1)
    (hsep : ∀ s ∈ seps, fenceChar ∉ s)
    (hblocks : ∀ p ∈ blocks,
      p.1.map Char.toLower = language.toList.map Char.toLower ∧
      takeBody (p.2 ++ [fenceChar, fenceChar, fenceChar]) = some (p.2, [])) :
    extract_code_blocks (String.mk (mkText seps blocks)) language =
      blocks.map (fun p => String.mk p.2) := by
  unfold extract_code_blocks
  rw [show (String.mk (mkText seps blocks)).toList = mkText seps blocks from rfl]
  rw [findBlocks_mkText language.toList blocks seps hlen hsep hblocks, List.map_map]
  rfl

/-- Witness for C6: a concrete text with one upper-case-tagged block
between backtick-free separators extracts exactly its body. -/
theorem extract_code_blocks_spec_witness :
    extract_code_blocks
        (String.mk (mkText [[' '], ['x']] [(['R'], ['p', '(', '1', ')'])])) ("r") =
      [String.mk ['p', '(', '1', ')']] :=
  extract_code_blocks_spec ("r") [(['R'], ['p', '(', '1', ')'])] [[' '], ['x']]
    (by decide) (by decide) (by decide)

/-! ## Per-turn orchestration: `chat` and `stream_chat`

The Ollama call is an explicit outcome: `.ok text` when it returned the
assistant message, `.error e` when it raised an exception described by
`e`.  `execEnv i` is the `ExecResult` the environment produced for the
i-th `_execute_r_code` call of the turn. -/

/-- One conversation-history message. -/
structure Msg where
  role : String
  content : String
deriving DecidableEq, Repr

/-- The result dictionary returned by `chat` / `stream_chat`
(`r_error` is present only when some block failed). -/
structure ChatResult where
  response : String
  skills_used : List String
  r_executed : Bool
  plot_files : List DirFile
  r_error : Option String
deriving DecidableEq, Repr

/-- The code-block loop of `chat`: process the blocks in order,
accumulating the executed flag, the collected plot files and the last
failing block's error; a failing block never stops the loop. -/
def processBlocksAux (execEnv : Nat → ExecResult) :
    Nat → (Bool × List DirFile × Option String) → List String →
      Bool × List DirFile × Option String
  | _, acc, [] => acc
  | i, acc, _ :: bs =>
    let er := execEnv i
    if er.success then
      processBlocksAux execEnv (i + 1) (true, acc.2.1 ++ er.plot_files, acc.2.2) bs
    else
      processBlocksAux execEnv (i + 1) (acc.1, acc.2.1, er.error) bs

/-- The block loop of `chat`, started on the initial result fields. -/
def processBlocks (execEnv : Nat → ExecResult) (blocks : List String) :
    Bool × List DirFile × Option String :=
  processBlocksAux execEnv 0 (false, [], none) blocks

/-- The code-block loop of `stream_chat` (identical except that it never
records `r_error`). -/
def streamProcessBlocksAux (execEnv : Nat → ExecResult) :
    Nat → (Bool × List DirFile) → List String → Bool × List DirFile
  | _, acc, [] => acc
  | i, acc, _ :: bs =>
    let er := execEnv i
    if er.success then
      streamProcessBlocksAux execEnv (i + 1) (true, acc.2 ++ er.plot_files) bs
    else
      streamProcessBlocksAux execEnv (i + 1) acc bs

/-- The block loop of `stream_chat`, started on the initial fields. -/
def streamProcessBlocks (execEnv : Nat → ExecResult) (blocks : List String) :
    Bool × List DirFile :=
  streamProcessBlocksAux execEnv 0 (false, []) blocks

/-- `EnhancedOllamaAgent.chat`: select skills, call the model, on success
append the user and assistant messages to the history, extract the R
blocks and run them; on an exception from the model call return the
unchanged history and a result whose response is the error description. -/
def chat (skills : List Skill) (autoExecuteR : Bool) (execEnv : Nat → ExecResult)
    (history : List Msg) (userMessage : String) (collab : Except String String) :
    List Msg × ChatResult :=
  match collab with
  | .error e =>
    (history,
      { response := "Error: " ++ e, skills_used := [], r_executed := false,
        plot_files := [], r_error := none })
  | .ok assistantMessage =>
    let relevant := select_relevant_skills skills userMessage 2
    let history' := history ++
      [{ role := "user", content := userMessage },
       { role := "assistant", content := assistantMessage }]
    let blocks := extract_code_blocks assistantMessage ("r")
    let looped :=
      if blocks ≠ [] ∧ autoExecuteR = true then processBlocks execEnv blocks
      else (false, [], none)
    (history',
      { response := assistantMessage, skills_used := relevant.map Skill.name,
        r_executed := looped.1, plot_files := looped.2.1, r_error := looped.2.2 })

/-- The outcome of the streaming model call: either the fully drained
response text, or an exception after some (possibly empty) partial text. -/
inductive StreamOutcome where
  | ok (full : String)
  | failed (partText : String) (message : String)
deriving DecidableEq, Repr

/-- `EnhancedOllamaAgent.stream_chat`: like `chat`, but on an exception
the response is the partial text when non-empty (Python
`full_response or f"Error: {e}"`), and `r_error` is never recorded. -/
def stream_chat (skills : List Skill) (autoExecuteR : Bool)
    (execEnv : Nat → ExecResult) (history : List Msg) (userMessage : String)
    (outcome : StreamOutcome) : List Msg × ChatResult :=
  match outcome with
  | .failed partText e =>
    (history,
      { response := if partText = "" then "Error: " ++ e else partText,
        skills_used := [], r_executed := false, plot_files := [], r_error := none })
  | .ok full =>
    let relevant := select_relevant_skills skills userMessage 2
    let history' := history ++
      [{ role := "user", content := userMessage },
       { role := "assistant", content := full }]
    let blocks := extract_code_blocks full ("r")
    let looped :=
      if blocks ≠ [] ∧ autoExecuteR = true then streamProcessBlocks execEnv blocks
      else (false, [])
    (history',
      { response := full, skills_used := relevant.map Skill.name,
        r_executed := looped.1, plot_files := looped.2, r_error := none })

theorem processBlocksAux_flag (execEnv : Nat → ExecResult) :
    ∀ (bs : List String) (i : Nat) (acc : Bool × List DirFile × Option String),
      (processBlocksAux execEnv i acc bs).1 =
        (acc.1 || (List.range' i bs.length).any (fun j => (execEnv j).success)) := by
  intro bs
  induction bs with
  | nil => intro i acc; simp [processBlocksAux]
  | cons b bs ih =>
    intro i acc
    simp only [processBlocksAux, List.length_cons, List.range'_succ, List.any_cons]
    by_cases hsuc : (execEnv i).success
    · rw [if_pos hsuc, ih]
      simp [hsuc]
    · rw [if_neg hsuc, ih]
      simp [Bool.eq_false_iff.mpr hsuc]

theorem processBlocksAux_plots (execEnv : Nat → ExecResult) :
    ∀ (bs : List String) (i : Nat) (acc : Bool × List DirFile × Option String),
      (processBlocksAux execEnv i acc bs).2.1 =
        acc.2.1 ++ ((List.range' i bs.length).filter
          (fun j => (execEnv j).success)).flatMap (fun j => (execEnv j).plot_files) := by
  intro bs
  induction bs with
  | nil => intro i acc; simp [processBlocksAux]
  | cons b bs ih =>
    intro i acc
    simp only [processBlocksAux, List.length_cons, List.range'_succ, List.filter_cons]
    by_cases hsuc : (execEnv i).success
    · rw [if_pos hsuc, ih]
      simp [hsuc, List.flatMap_cons, List.append_assoc]
    · rw [if_neg hsuc, ih]
      simp [Bool.eq_false_iff.mpr hsuc]

/-- C5: for every sequence of block-execution outcomes, the block loop of
`chat` processes every block independently in order: the final
`r_executed` flag is true exactly when at least one block's execution
succeeded, and the collected plot files are the concatenation, in block
order, of the plot files of all successful blocks — including those that
come after a failing block, so a failure in block i does not prevent
block i+1 from being executed.  At the turn level, `chat`'s result flag
equals that disjunction over the blocks extracted from the response. -/
theorem chat_blocks_independent (execEnv : Nat → ExecResult) (blocks : List String) :
    (processBlocks execEnv blocks).1 =
      (List.range blocks.length).any (fun j => (execEnv j).success) ∧
    (processBlocks execEnv blocks).2.1 =
      ((List.range blocks.length).filter (fun j => (execEnv j).success)).flatMap
        (fun j => (execEnv j).plot_files) ∧
    ∀ (skills : List Skill) (history : List Msg) (u msgText : String),
      (chat skills true execEnv history u (.ok msgText)).2.r_executed =
        (List.range (extract_code_blocks msgText ("r")).length).any
          (fun j => (execEnv j).success) := by
  refine ⟨?_, ?_, ?_⟩
  · rw [processBlocks, processBlocksAux_flag, List.range_eq_range']
    simp
  · rw [processBlocks, processBlocksAux_plots, List.range_eq_range']
    simp
  · intro skills history u msgText
    by_cases hb : extract_code_blocks msgText ("r") = []
    · simp only [chat, hb]
      simp
    · simp only [chat]
      rw [if_pos ⟨hb, by trivial⟩]
      rw [processBlocks, processBlocksAux_flag, List.range_eq_range']
      simp

/-- A concrete execution environment in which every block run fails. -/
def failEnv : Nat → ExecResult := fun _ =>
  { success := false, error := some (""), output := "", plot_files := [] }

/-- C4 counterexample: when the model call raises, `chat` does surface
the failure description as the response text, but the conversation
history is NOT updated with the user message that was sent — starting
from an empty history it stays empty, contradicting the claim that the
history is still updated with what was sent. -/
theorem chat_failure_history_counterexample :
    (chat [] true failEnv [] ("hi") (.error ("boom"))).2.response = "Error: boom" ∧
    (chat [] true failEnv [] ("hi") (.error ("boom"))).1 = [] ∧
    ¬ ({ role := "user", content := "hi" } : Msg) ∈
        (chat [] true failEnv [] ("hi") (.error ("boom"))).1 := by
  refine ⟨rfl, rfl, ?_⟩
  intro h
  simp [chat] at h

/-- C4 (amended): if the external chat call raises during a turn, `chat`
and `stream_chat` catch the failure and return a result instead of
propagating: `chat`'s response is the failure description, and
`stream_chat`'s response is the partial streamed text when non-empty and
the failure description otherwise; in both cases the conversation
history is left unchanged (the user message for the turn is NOT
appended). -/
theorem chat_failure_spec (skills : List Skill) (auto : Bool)
    (execEnv : Nat → ExecResult) (history : List Msg) (u e partText : String) :
    chat skills auto execEnv history u (.error e) =
      (history,
        { response := "Error: " ++ e, skills_used := [], r_executed := false,
          plot_files := [], r_error := none }) ∧
    stream_chat skills auto execEnv history u (.failed partText e) =
      (history,
        { response := if partText = "" then "Error: " ++ e else partText,
          skills_used := [], r_executed := false, plot_files := [],
          r_error := none }) :=
  ⟨rfl, rfl⟩

/-- C10: when the model call raises, the failure results of `chat` and
`stream_chat` report `skills_used` as the empty sequence, whatever skills
had been selected for the turn. -/
theorem chat_failure_no_skills_used (skills : List Skill) (auto : Bool)
    (execEnv : Nat → ExecResult) (history : List Msg) (u e partText : String) :
    (chat skills auto execEnv history u (.error e)).2.skills_used = [] ∧
    (stream_chat skills auto execEnv history u (.failed partText e)).2.skills_used
      = [] :=
  ⟨rfl, rfl⟩

/-! ## `SkillManager._discover_skills` -/

/-- One immediate child of the skills root: whether it is a directory,
whether it contains `SKILL.md`, and the outcome of constructing the
`Skill` from it (`.error` when parsing raised). -/
structure SkillDirEntry where
  isDir : Bool
  hasManifest : Bool
  parse : Except String Skill
deriving Repr

/-- `SkillManager._discover_skills`: when the root does not exist, create
it and load nothing; otherwise, for each child directory containing the
manifest, keep the parsed skill when construction succeeds and skip the
directory (continuing with the rest) when it raises.  The second
component records whether the root directory exists afterwards. -/
def discover_skills (rootExists : Bool) (entries : List SkillDirEntry) :
    List Skill × Bool :=
  if rootExists = false then ([], true)
  else
    (entries.filterMap (fun d =>
      if d.isDir && d.hasManifest then d.parse.toOption else none), true)

/-- C8: registry construction never fails (it is a total function): a
missing root yields an empty registry with the root created; with an
existing root the loaded skills are exactly the successful parses of the
manifest-bearing child directories, a failing entry is skipped with
discovery of the surrounding entries unaffected, and a successful entry
contributes its skill in position. -/
theorem discover_skills_spec (entries : List SkillDirEntry) :
    (discover_skills false entries = ([], true)) ∧
    ((discover_skills true entries).2 = true) ∧
    ((discover_skills true entries).1 = entries.filterMap (fun d =>
      if d.isDir && d.hasManifest then d.parse.toOption else none)) ∧
    (∀ (pre post : List SkillDirEntry) (d : SkillDirEntry) (msg : String),
      d.parse = .error msg →
      (discover_skills true (pre ++ d :: post)).1 =
        (discover_skills true (pre ++ post)).1) ∧
    (∀ (pre post : List SkillDirEntry) (d : SkillDirEntry) (sk : Skill),
      d.isDir = true → d.hasManifest = true → d.parse = .ok sk →
      (discover_skills true (pre ++ d :: post)).1 =
        (discover_skills true pre).1 ++ sk :: (discover_skills true post).1) := by
  refine ⟨rfl, rfl, rfl, ?_, ?_⟩
  · intro pre post d msg hd
    simp only [discover_skills, if_neg (by simp : ¬ (true = false))]
    rw [List.filterMap_append, List.filterMap_append, List.filterMap_cons]
    by_cases hc : (d.isDir && d.hasManifest) = true
    · rw [if_pos hc, hd]
      rfl
    · rw [if_neg hc]
  · intro pre post d sk h1 h2 h3
    simp only [discover_skills, if_neg (by simp : ¬ (true = false))]
    rw [List.filterMap_append, List.filterMap_cons, if_pos (by simp [h1, h2]), h3]
    rfl

/-- Witness for C8: a failing middle entry is skipped and the two
successful neighbours survive. -/
theorem discover_skills_spec_witness :
    (⟨true, true, .error ("bad yaml")⟩ : SkillDirEntry).parse = .error ("bad yaml") ∧
    (discover_skills true
        ([⟨true, true, .ok ⟨"a", "", ""⟩⟩] ++ ⟨true, true, .error ("bad yaml")⟩ ::
          [⟨true, true, .ok ⟨"b", "", ""⟩⟩])).1 =
      (discover_skills true
        ([⟨true, true, .ok ⟨"a", "", ""⟩⟩] ++ [⟨true, true, .ok ⟨"b", "", ""⟩⟩])).1 :=
  ⟨rfl,
    (discover_skills_spec []).2.2.2.1
      [⟨true, true, .ok ⟨"a", "", ""⟩⟩] [⟨true, true, .ok ⟨"b", "", ""⟩⟩]
      ⟨true, true, .error ("bad yaml")⟩ ("bad yaml") rfl⟩

/-! ## Reference-file indexing and lazy reading (`Skill._load_skill`,
`Skill.read_reference_file`) -/

/-- What reading a file's content yields: decodable text, or content
that raises `UnicodeDecodeError`. -/
inductive FileData where
  | text (content : String)
  | binary
deriving DecidableEq, Repr

/-- One entry of the recursive walk (`rglob`) of a skill directory:
its path components relative to the skill directory, whether it is a
regular file, and its content. -/
structure RefEntry where
  path : List String
  isFile : Bool
  data : FileData
deriving DecidableEq, Repr

/-- `str(rel_path)`: the relative path joined with the separator. -/
def joinRel (comps : List String) : String := String.intercalate ("/") comps

/-- The reference-file indexing loop of `Skill._load_skill`: every
regular file of the recursive walk whose final name component is not
`SKILL.md` is indexed under its joined relative path; the entry (a
handle, not the content) is stored. -/
def load_reference_files (entries : List RefEntry) : List (String × RefEntry) :=
  entries.filterMap (fun e =>
    if e.isFile && (e.path.getLastD ("") != "SKILL.md") then
      some (joinRel e.path, e)
    else none)

/-- `Skill.read_reference_file`: look the name up in the index; absent
names yield `None`; binary (undecodable) content yields the placeholder
marker; text content is returned as is. -/
def read_reference_file (refs : List (String × RefEntry)) (filename : String) :
    Option String :=
  match refs.lookup filename with
  | some e =>
    some (match e.data with
      | .text c => c
      | .binary => "[Binary file: " ++ filename ++ "]")
  | none => none

/-- C9 counterexample: the indexing loop excludes every file NAMED
`SKILL.md`, not only the top-level manifest.  A regular file at
`sub/SKILL.md` — which is not the manifest itself, its relative path
differing from `SKILL.md` — is nevertheless left out of the index,
contradicting the claim that every regular file other than the top-level
`SKILL.md` is indexed. -/
theorem load_reference_files_counterexample :
    (⟨["sub", "SKILL.md"], true, .text ("x")⟩ : RefEntry).isFile = true ∧
    joinRel ["sub", "SKILL.md"] ≠ "SKILL.md" ∧
    load_reference_files [⟨["sub", "SKILL.md"], true, .text ("x")⟩] = [] := by
  refine ⟨rfl, by decide, ?_⟩
  rfl

/-- C9 (amended): after parsing, the walk of the skill directory indexes
exactly the regular files whose final name component is not `SKILL.md`
(so nested files named `SKILL.md` are also excluded), keyed by their
path relative to the skill directory; the index stores handles and
content is produced only by `read_reference_file`, which returns the
placeholder marker string for undecodable (binary) content, the text
itself for decodable content, and `None` for unknown names. -/
theorem load_reference_files_spec (entries : List RefEntry)
    (refs : List (String × RefEntry)) (filename : String) (e : RefEntry)
    (c : String) :
    (∀ key ent, (key, ent) ∈ load_reference_files entries ↔
      ent ∈ entries ∧ ent.isFile = true ∧ ent.path.getLastD ("") ≠ "SKILL.md" ∧
        key = joinRel ent.path) ∧
    (refs.lookup filename = none → read_reference_file refs filename = none) ∧
    (refs.lookup filename = some e → e.data = .binary →
      read_reference_file refs filename =
        some ("[Binary file: " ++ filename ++ "]")) ∧
    (refs.lookup filename = some e → e.data = .text c →
      read_reference_file refs filename = some c) := by
  refine ⟨?_, ?_, ?_, ?_⟩
  · intro key ent
    simp only [load_reference_files, List.mem_filterMap]
    constructor
    · rintro ⟨a, ha, hfa⟩
      by_cases hc : (a.isFile && (a.path.getLastD ("") != "SKILL.md")) = true
      · rw [if_pos hc] at hfa
        obtain ⟨hk, he⟩ := Prod.mk.inj (Option.some.inj hfa)
        subst he
        simp only [Bool.and_eq_true, bne_iff_ne, ne_eq] at hc
        exact ⟨ha, hc.1, hc.2, hk.symm⟩
      · rw [if_neg hc] at hfa
        cases hfa
    · rintro ⟨hmem, hfile, hname, hkey⟩
      refine ⟨ent, hmem, ?_⟩
      have hc : (ent.isFile && (ent.path.getLastD ("") != "SKILL.md")) = true := by
        simp only [hfile, Bool.true_and, bne_iff_ne, ne_eq]
        simpa [List.getLastD_eq_getLast?] using hname
      rw [if_pos hc, hkey]
  · intro h
    simp [read_reference_file, h]
  · intro h hd
    simp [read_reference_file, h, hd]
  · intro h hd
    simp [read_reference_file, h, hd]

/-- Witness for C9: a binary reference file read through the index yields
the placeholder marker. -/
theorem load_reference_files_spec_witness :
    read_reference_file [("data/img.bin", ⟨["data", "img.bin"], true, .binary⟩)]
        ("data/img.bin") =
      some ("[Binary file: " ++ "data/img.bin" ++ "]") :=
  (load_reference_files_spec []
      [("data/img.bin", ⟨["data", "img.bin"], true, .binary⟩)] ("data/img.bin")
      ⟨["data", "img.bin"], true, .binary⟩ ("")).2.2.1 (by decide) rfl
